import Mathlib

/-!
Verification of the qdhex hex-dump library (src/lib.rs).

Bytes are modelled as natural numbers below 256, byte buffers as lists of
naturals, and the Rust u32 arithmetic as naturals reduced modulo 2 ^ 32.
Each Rust function is translated into a Lean function of the same name:
Vec push/pop become list append and dropLast, slice chunking becomes the
recursive chunks16, and the hex-digit table indexing becomes list lookup
with a default (a separate Option-valued variant tracks the in-bounds
obligation that Rust indexing would panic on).
-/

/-- The hex digit table, byte values of the string of digits 0-9 a-f. -/
def HEX_DIGIT : List Nat :=
  [48, 49, 50, 51, 52, 53, 54, 55, 56, 57, 97, 98, 99, 100, 101, 102]

/-- Table lookup as the Rust indexing does; callers only reach indices
below 16, any other index models the out-of-bounds panic path. -/
def hexDigit (n : Nat) : Nat := HEX_DIGIT.getD n 0

/-- Checked table lookup: none models the Rust panic on a bad index. -/
def hexDigitChecked (n : Nat) : Option Nat := HEX_DIGIT.get? n

/-- Loop body of write_bare_dump_to_vec: push the high nibble digit, the
low nibble digit, and a space. The Rust byte >> 4 is division by 16 and
byte & 0x0f is the remainder mod 16. -/
def pushByteHex (target : List Nat) (byte : Nat) : List Nat :=
  target ++ [hexDigit (byte / 16), hexDigit (byte % 16), 32]

/-- src/lib.rs write_bare_dump_to_vec: append hex pairs separated by
spaces for every byte, then pop the last element of the buffer
(unconditionally, exactly as the Rust code does). -/
def write_bare_dump_to_vec (data : List Nat) (target : List Nat) : List Nat :=
  (data.foldl pushByteHex target).dropLast

/-- src/lib.rs bare_dump: run the bare dumper on a fresh buffer. -/
def bare_dump (data : List Nat) : List Nat :=
  write_bare_dump_to_vec data []

/-- src/lib.rs bare_dump_string: String::from_utf8_unchecked keeps the
bytes unchanged, so at the byte level it is the identity wrap. -/
def bare_dump_string (data : List Nat) : List Nat :=
  bare_dump data

/-- The bytes the bare-dump loop appends for a byte list (the loop part
of write_bare_dump_to_vec, before the trailing pop). -/
def bareChunks : List Nat → List Nat
  | [] => []
  | b :: rest => hexDigit (b / 16) :: hexDigit (b % 16) :: 32 :: bareChunks rest

/-- Independent hex-digit decoder for the round-trip check: maps the byte
value of a hex character back to its 4-bit value. -/
def decodeHexDigit (c : Nat) : Nat :=
  if 48 ≤ c ∧ c ≤ 57 then c - 48
  else if 97 ≤ c ∧ c ≤ 102 then c - 87
  else 0

/-- Independent decoder of the bare-dump format: read a two-digit hex
pair, skip the following separator if present, repeat. -/
def decodeBare : List Nat → List Nat
  | hi :: lo :: rest =>
      (16 * decodeHexDigit hi + decodeHexDigit lo) :: decodeBare (rest.drop 1)
  | _ => []
termination_by l => l.length
decreasing_by
  simp only [List.length_drop, List.length_cons]
  omega

/-- The ASCII-sidebar rendering of one byte, exactly the conditional of
the Rust loop: the byte itself in the printable range 0x20..0x7e, the dot
0x2e otherwise. -/
def sidebarChar (byte : Nat) : Nat :=
  if 32 ≤ byte ∧ byte ≤ 126 then byte else 46

/-- The four offset digits the formatted dumper pushes: for i in 0..4 the
digit of line_offset shifted right by 4 * (3 - i) and masked to a nibble
(shift is division by 16 ^ (3 - i), mask is mod 16). -/
def offsetPrefix (lineOffset : Nat) : List Nat :=
  (List.range 4).map (fun i => hexDigit (lineOffset / 16 ^ (3 - i) % 16))

/-- One iteration of the chunk loop of write_formatted_dump_to_vec:
offset digits, a space, the bare dump of the chunk, three pad spaces per
missing byte, a space, the ASCII sidebar, a newline. -/
def formatLine (lineOffset : Nat) (chunk : List Nat) (target : List Nat) : List Nat :=
  write_bare_dump_to_vec chunk (target ++ offsetPrefix lineOffset ++ [32])
    ++ List.replicate (3 * (16 - chunk.length)) 32
    ++ [32] ++ chunk.map sidebarChar ++ [10]

/-- data.chunks(16) of the Rust slice API: split into runs of 16 with a
shorter non-empty final run. -/
def chunks16 : List Nat → List (List Nat)
  | [] => []
  | b :: rest => (b :: rest).take 16 :: chunks16 ((b :: rest).drop 16)
termination_by l => l.length
decreasing_by
  simp only [List.length_drop, List.length_cons]
  omega

/-- The chunk loop of write_formatted_dump_to_vec; the running offset
advances by 16 per chunk with u32 wrap-around (mod 2 ^ 32). -/
def writeFormattedGo : Nat → List (List Nat) → List Nat → List Nat
  | _, [], target => target
  | lineOffset, c :: rest, target =>
      writeFormattedGo ((lineOffset + 16) % 2 ^ 32) rest (formatLine lineOffset c target)

/-- src/lib.rs write_formatted_dump_to_vec. -/
def write_formatted_dump_to_vec (offset : Nat) (data : List Nat) (target : List Nat) : List Nat :=
  writeFormattedGo offset (chunks16 data) target

/-- src/lib.rs formatted_dump: run the formatted dumper on a fresh buffer. -/
def formatted_dump (offset : Nat) (data : List Nat) : List Nat :=
  write_formatted_dump_to_vec offset data []

/-- src/lib.rs formatted_dump_string: the unchecked text wrap keeps the
bytes unchanged. -/
def formatted_dump_string (offset : Nat) (data : List Nat) : List Nat :=
  formatted_dump offset data

/-- The output lines of the chunk loop, one list per chunk, with the same
running-offset advance as writeFormattedGo. -/
def formattedLines : Nat → List (List Nat) → List (List Nat)
  | _, [] => []
  | lineOffset, c :: rest =>
      formatLine lineOffset c [] :: formattedLines ((lineOffset + 16) % 2 ^ 32) rest

/-- Rendering of a value below 2 ^ 16 as 4 lowercase hex digits, most
significant nibble first (the specified meaning of the offset prefix). -/
def natToHex4 (n : Nat) : List Nat :=
  [hexDigit (n / 4096 % 16), hexDigit (n / 256 % 16),
    hexDigit (n / 16 % 16), hexDigit (n % 16)]

/-- Checked loop body of the bare dumper: fails where Rust indexing would
panic. -/
def pushByteHexChecked (target : Option (List Nat)) (byte : Nat) : Option (List Nat) :=
  target.bind fun t =>
    (hexDigitChecked (byte / 16)).bind fun hi =>
      (hexDigitChecked (byte % 16)).map fun lo => t ++ [hi, lo, 32]

/-- Checked bare dumper. -/
def writeBareChecked (data : List Nat) (target : List Nat) : Option (List Nat) :=
  (data.foldl pushByteHexChecked (some target)).map List.dropLast

/-- Checked offset digits. -/
def offsetPrefixChecked (lineOffset : Nat) : Option (List Nat) :=
  (List.range 4).mapM fun i => hexDigitChecked (lineOffset / 16 ^ (3 - i) % 16)

/-- Checked line formatting. -/
def formatLineChecked (lineOffset : Nat) (chunk : List Nat) (target : List Nat) :
    Option (List Nat) :=
  (offsetPrefixChecked lineOffset).bind fun pre =>
    (writeBareChecked chunk (target ++ pre ++ [32])).map fun t =>
      t ++ List.replicate (3 * (16 - chunk.length)) 32
        ++ [32] ++ chunk.map sidebarChar ++ [10]

/-- Checked chunk loop. -/
def writeFormattedGoChecked : Nat → List (List Nat) → List Nat → Option (List Nat)
  | _, [], target => some target
  | lineOffset, c :: rest, target =>
      (formatLineChecked lineOffset c target).bind
        (writeFormattedGoChecked ((lineOffset + 16) % 2 ^ 32) rest)

/-- Checked formatted dumper. -/
def writeFormattedChecked (offset : Nat) (data : List Nat) (target : List Nat) :
    Option (List Nat) :=
  writeFormattedGoChecked offset (chunks16 data) target

theorem foldl_pushByteHex (d : List Nat) (t : List Nat) :
    d.foldl pushByteHex t = t ++ bareChunks d := by
  induction d generalizing t with
  | nil => simp [bareChunks]
  | cons b rest ih =>
    simp only [List.foldl_cons, bareChunks, ih, pushByteHex]
    simp

theorem write_bare_eq (d : List Nat) (t : List Nat) :
    write_bare_dump_to_vec d t = (t ++ bareChunks d).dropLast := by
  simp [write_bare_dump_to_vec, foldl_pushByteHex]

theorem bareChunks_length (d : List Nat) : (bareChunks d).length = 3 * d.length := by
  induction d with
  | nil => simp [bareChunks]
  | cons b rest ih => simp [bareChunks, ih]; omega

theorem bareChunks_ne_nil {d : List Nat} (h : d ≠ []) : bareChunks d ≠ [] := by
  cases d with
  | nil => exact absurd rfl h
  | cons b rest => simp [bareChunks]

/-- Appending to a non-empty-data bare dump only appends: the trailing
pop removes the separator the loop itself just pushed. -/
theorem write_bare_frame {d : List Nat} (h : d ≠ []) (t : List Nat) :
    write_bare_dump_to_vec d t = t ++ bare_dump d := by
  rw [write_bare_eq, bare_dump, write_bare_eq, List.nil_append]
  cases hb : bareChunks d with
  | nil => exact absurd hb (bareChunks_ne_nil h)
  | cons x xs => rw [List.dropLast_append_cons]

theorem bare_dump_length (d : List Nat) :
    (bare_dump d).length = 3 * d.length - 1 := by
  rw [bare_dump, write_bare_eq, List.nil_append, List.length_dropLast,
    bareChunks_length]

/-- Claim C1: stated for the code as written. The Rust pop runs even when
data is empty, so a pre-existing trailing byte of the target is removed:
with data = [] and target = [72, 33] the call returns [72]. -/
theorem write_bare_empty_data_pops_target :
    write_bare_dump_to_vec [] [72, 33] = [72] := rfl

/-- Claim C2: the bare dump of d has length 3 * len d - 1 (which is 0 for
empty d by truncated subtraction), and the dump of the empty sequence is
the empty sequence. -/
theorem bare_dump_len_spec (d : List Nat) :
    (bare_dump d).length = 3 * d.length - 1 ∧ bare_dump ([] : List Nat) = [] :=
  ⟨bare_dump_length d, rfl⟩

theorem decodeHexDigit_hexDigit : ∀ n < 16, decodeHexDigit (hexDigit n) = n := by decide

theorem hexDigit_mem : ∀ n < 16, hexDigit n ∈ HEX_DIGIT := by decide

theorem bareChunks_chars {d : List Nat} (hd : ∀ b ∈ d, b < 256) :
    ∀ x ∈ bareChunks d, x ∈ HEX_DIGIT ∨ x = 32 := by
  induction d with
  | nil => simp [bareChunks]
  | cons b rest ih =>
    have hb : b < 256 := hd b (List.mem_cons_self b rest)
    intro x hx
    simp only [bareChunks, List.mem_cons] at hx
    rcases hx with h | h | h | h
    · exact Or.inl (h ▸ hexDigit_mem (b / 16) (Nat.div_lt_of_lt_mul (by omega)))
    · exact Or.inl (h ▸ hexDigit_mem (b % 16) (Nat.mod_lt b (by omega)))
    · exact Or.inr h
    · exact ih (fun y hy => hd y (List.mem_cons_of_mem b hy)) x h

theorem decodeBare_pair {b : Nat} (hb : b < 256) (rest : List Nat) :
    decodeBare (hexDigit (b / 16) :: hexDigit (b % 16) :: rest) =
      b :: decodeBare (rest.drop 1) := by
  rw [decodeBare]
  have h1 : decodeHexDigit (hexDigit (b / 16)) = b / 16 :=
    decodeHexDigit_hexDigit (b / 16) (Nat.div_lt_of_lt_mul (by omega))
  have h2 : decodeHexDigit (hexDigit (b % 16)) = b % 16 :=
    decodeHexDigit_hexDigit (b % 16) (Nat.mod_lt b (by omega))
  rw [h1, h2, Nat.div_add_mod]

theorem decodeBare_bare_dump {d : List Nat} (hd : ∀ b ∈ d, b < 256) :
    decodeBare (bare_dump d) = d := by
  induction d with
  | nil =>
    show decodeBare [] = []
    simp [decodeBare]
  | cons b rest ih =>
    have hb : b < 256 := hd b (List.mem_cons_self b rest)
    have hrest : ∀ y ∈ rest, y < 256 := fun y hy => hd y (List.mem_cons_of_mem b hy)
    rw [bare_dump, write_bare_eq, List.nil_append] at ih ⊢
    cases rest with
    | nil =>
      show decodeBare [hexDigit (b / 16), hexDigit (b % 16)] = [b]
      rw [decodeBare_pair hb]
      simp [decodeBare]
    | cons c r =>
      have hK : bareChunks (c :: r) ≠ [] := bareChunks_ne_nil (by simp)
      rw [show bareChunks (b :: c :: r) =
        hexDigit (b / 16) :: hexDigit (b % 16) :: 32 :: bareChunks (c :: r) from rfl]
      cases hb2 : bareChunks (c :: r) with
      | nil => exact absurd hb2 hK
      | cons z zs =>
        rw [hb2] at ih
        simp only [List.dropLast_cons₂]
        rw [decodeBare_pair hb]
        simp only [List.drop_succ_cons, List.drop_zero]
        rw [show (z :: zs).dropLast = List.dropLast (z :: zs) from rfl]
        rw [ih hrest]

/-- Claim C3: the bare dump consists only of lowercase hex-digit bytes and
spaces, and decoding each hex pair with an independent decoder reproduces
the input exactly. -/
theorem bare_dump_roundtrip (d : List Nat) (hd : ∀ b ∈ d, b < 256) :
    decodeBare (bare_dump d) = d ∧
      ∀ x ∈ bare_dump d, x ∈ HEX_DIGIT ∨ x = 32 := by
  refine ⟨decodeBare_bare_dump hd, fun x hx => ?_⟩
  rw [bare_dump, write_bare_eq, List.nil_append] at hx
  exact bareChunks_chars hd x (List.mem_of_mem_dropLast hx)

/-- Concrete instance of claim C3 at the input [0, 171, 255]. -/
theorem bare_dump_roundtrip_witness :
    decodeBare (bare_dump [0, 171, 255]) = [0, 171, 255] ∧
      ∀ x ∈ bare_dump [0, 171, 255], x ∈ HEX_DIGIT ∨ x = 32 :=
  bare_dump_roundtrip [0, 171, 255] (by decide)

theorem chunks16_nil : chunks16 [] = [] := by rw [chunks16]

theorem chunks16_cons (b : Nat) (rest : List Nat) :
    chunks16 (b :: rest) = (b :: rest).take 16 :: chunks16 ((b :: rest).drop 16) := by
  rw [chunks16]

theorem chunks16_flatten (d : List Nat) : (chunks16 d).flatten = d := by
  induction d using chunks16.induct with
  | case1 => rw [chunks16_nil]; rfl
  | case2 b rest ih =>
    rw [chunks16_cons, List.flatten_cons, ih, List.take_append_drop]

theorem chunks16_mem (d : List Nat) :
    ∀ c ∈ chunks16 d, c ≠ [] ∧ c.length ≤ 16 := by
  induction d using chunks16.induct with
  | case1 => rw [chunks16_nil]; intro c hc; cases hc
  | case2 b rest ih =>
    rw [chunks16_cons]
    intro c hc
    rcases List.mem_cons.1 hc with h | h
    · subst h
      refine ⟨by simp, ?_⟩
      rw [List.length_take]
      exact min_le_left 16 _
    · exact ih c h

theorem chunks16_length (d : List Nat) :
    (chunks16 d).length = (d.length + 15) / 16 := by
  induction d using chunks16.induct with
  | case1 => rw [chunks16_nil]; rfl
  | case2 b rest ih =>
    rw [chunks16_cons]
    simp only [List.length_cons, ih, List.length_drop]
    omega

theorem chunks16_subset {d c : List Nat} (hc : c ∈ chunks16 d) {b : Nat} (hb : b ∈ c) :
    b ∈ d := by
  have hm : b ∈ (chunks16 d).flatten := List.mem_flatten.2 ⟨c, hc, hb⟩
  rwa [chunks16_flatten] at hm

theorem offsetPrefix_length (a : Nat) : (offsetPrefix a).length = 4 := by
  simp [offsetPrefix]

theorem formatLine_parts {c : List Nat} (h : c ≠ []) (off : Nat) (t : List Nat) :
    formatLine off c t =
      t ++ offsetPrefix off ++ [32] ++ bare_dump c
        ++ List.replicate (3 * (16 - c.length)) 32
        ++ [32] ++ c.map sidebarChar ++ [10] := by
  unfold formatLine
  rw [write_bare_frame h]

theorem formatLine_frame {c : List Nat} (h : c ≠ []) (off : Nat) (t : List Nat) :
    formatLine off c t = t ++ formatLine off c [] := by
  rw [formatLine_parts h, formatLine_parts h off []]
  simp [List.append_assoc]

theorem formatLine_length {c : List Nat} (h1 : c ≠ []) (h2 : c.length ≤ 16) (off : Nat) :
    (formatLine off c []).length = 54 + c.length := by
  have hpos : 0 < c.length := List.length_pos.2 h1
  rw [formatLine_parts h1]
  simp only [List.length_append, List.length_nil, offsetPrefix_length,
    List.length_cons, List.length_replicate, List.length_map, bare_dump_length]
  omega

theorem formatLine_take5 {c : List Nat} (h : c ≠ []) (off : Nat) :
    (formatLine off c []).take 5 = offsetPrefix off ++ [32] := by
  have hsplit : formatLine off c [] =
      (offsetPrefix off ++ [32]) ++
        (bare_dump c ++ (List.replicate (3 * (16 - c.length)) 32
          ++ ([32] ++ (c.map sidebarChar ++ [10])))) := by
    rw [formatLine_parts h]
    simp [List.append_assoc]
  rw [hsplit, List.take_left' (by simp [offsetPrefix_length])]

theorem formatLine_drop53 {c : List Nat} (h1 : c ≠ []) (h2 : c.length ≤ 16) (off : Nat) :
    (formatLine off c []).drop 53 = c.map sidebarChar ++ [10] := by
  have hpos : 0 < c.length := List.length_pos.2 h1
  have hsplit : formatLine off c [] =
      (offsetPrefix off ++ [32] ++ bare_dump c
        ++ List.replicate (3 * (16 - c.length)) 32 ++ [32]) ++
        (c.map sidebarChar ++ [10]) := by
    rw [formatLine_parts h1]
    simp [List.append_assoc]
  rw [hsplit, List.drop_left']
  simp only [List.length_append, offsetPrefix_length, List.length_cons,
    List.length_nil, List.length_replicate, bare_dump_length]
  omega

theorem formatLine_getLast (off : Nat) (c : List Nat) (t : List Nat) :
    (formatLine off c t).getLast? = some 10 := by
  unfold formatLine
  exact List.getLast?_concat _

theorem hexDigit_ne_ten (n : Nat) : hexDigit n ≠ 10 := by
  by_cases h : n < 16
  · exact (by decide : ∀ m < 16, hexDigit m ≠ 10) n h
  · unfold hexDigit
    rw [List.getD_eq_default _ _ (by simp [HEX_DIGIT]; omega)]
    decide

theorem bareChunks_shape (d : List Nat) :
    ∀ x ∈ bareChunks d, (∃ n, x = hexDigit n) ∨ x = 32 := by
  induction d with
  | nil => simp [bareChunks]
  | cons b rest ih =>
    intro x hx
    simp only [bareChunks, List.mem_cons] at hx
    rcases hx with h | h | h | h
    · exact Or.inl ⟨b / 16, h⟩
    · exact Or.inl ⟨b % 16, h⟩
    · exact Or.inr h
    · exact ih x h

theorem sidebarChar_ne_ten (b : Nat) : sidebarChar b ≠ 10 := by
  unfold sidebarChar
  split
  · omega
  · decide

theorem mem_offsetPrefix {x : Nat} {a : Nat} (hx : x ∈ offsetPrefix a) :
    ∃ n, n < 16 ∧ x = hexDigit n := by
  simp only [offsetPrefix, List.mem_map] at hx
  obtain ⟨i, _, hi⟩ := hx
  exact ⟨a / 16 ^ (3 - i) % 16, Nat.mod_lt _ (by omega), hi.symm⟩

theorem formatLine_dropLast_ne_ten (off : Nat) (c : List Nat) :
    ∀ x ∈ (formatLine off c []).dropLast, x ≠ 10 := by
  intro x hx
  unfold formatLine at hx
  rw [List.dropLast_concat] at hx
  simp only [List.append_assoc, List.mem_append] at hx
  rcases hx with hx | hx | hx | hx
  · rw [write_bare_eq] at hx
    have hx' := List.mem_of_mem_dropLast hx
    simp only [List.nil_append, List.mem_append, List.mem_singleton] at hx'
    rcases hx' with (h | h) | h
    · obtain ⟨n, _, hn⟩ := mem_offsetPrefix h
      exact hn ▸ hexDigit_ne_ten n
    · omega
    · rcases bareChunks_shape c x h with ⟨n, hn⟩ | h32
      · exact hn ▸ hexDigit_ne_ten n
      · omega
  · have := List.eq_of_mem_replicate hx
    omega
  · rw [List.mem_singleton] at hx
    omega
  · rw [List.mem_map] at hx
    obtain ⟨b, _, hb⟩ := hx
    exact hb ▸ sidebarChar_ne_ten b

theorem writeFormattedGo_frame (cs : List (List Nat)) :
    ∀ (off : Nat) (t : List Nat), (∀ c ∈ cs, c ≠ []) →
      writeFormattedGo off cs t = t ++ (formattedLines off cs).flatten := by
  induction cs with
  | nil => intro off t _; simp [writeFormattedGo, formattedLines]
  | cons c rest ih =>
    intro off t h
    simp only [writeFormattedGo, formattedLines, List.flatten_cons]
    rw [ih _ _ fun c' hc' => h c' (List.mem_cons_of_mem c hc'),
      formatLine_frame (h c (List.mem_cons_self c rest)), List.append_assoc]

theorem formattedLines_length (cs : List (List Nat)) :
    ∀ off : Nat, (formattedLines off cs).length = cs.length := by
  induction cs with
  | nil => intro off; rfl
  | cons c rest ih => intro off; simp [formattedLines, ih]

theorem formattedLines_forall₂ (cs : List (List Nat)) :
    ∀ off : Nat, (∀ c ∈ cs, c ≠ [] ∧ c.length ≤ 16) →
      List.Forall₂
        (fun l c => l.length = 54 + c.length ∧ l.getLast? = some 10 ∧
          (∀ x ∈ l.dropLast, x ≠ 10) ∧ l.drop 53 = c.map sidebarChar ++ [10])
        (formattedLines off cs) cs := by
  induction cs with
  | nil => intro off _; exact List.Forall₂.nil
  | cons c rest ih =>
    intro off h
    have hc := h c (List.mem_cons_self c rest)
    exact List.Forall₂.cons
      ⟨formatLine_length hc.1 hc.2 off, formatLine_getLast off c [],
        formatLine_dropLast_ne_ten off c, formatLine_drop53 hc.1 hc.2 off⟩
      (ih _ fun c' hc' => h c' (List.mem_cons_of_mem c hc'))

/-- Claim C4: the formatted dump is the concatenation of one line per
16-byte chunk, ceil(len d / 16) lines in all; each line is
newline-terminated with no interior newline, a line for a chunk of k
bytes is 54 + k characters long (70 for a full chunk of 16), and the
sidebar of every line starts at output column 53, after the pad spaces
of a short chunk. -/
theorem formatted_dump_line_structure (off : Nat) (d : List Nat) :
    formatted_dump off d = (formattedLines off (chunks16 d)).flatten ∧
      (formattedLines off (chunks16 d)).length = (d.length + 15) / 16 ∧
      List.Forall₂
        (fun l c => l.length = 54 + c.length ∧ l.getLast? = some 10 ∧
          (∀ x ∈ l.dropLast, x ≠ 10) ∧ l.drop 53 = c.map sidebarChar ++ [10])
        (formattedLines off (chunks16 d)) (chunks16 d) ∧
      ∀ c ∈ chunks16 d, c ≠ [] ∧ c.length ≤ 16 := by
  refine ⟨?_, ?_, ?_, chunks16_mem d⟩
  · rw [formatted_dump, write_formatted_dump_to_vec,
      writeFormattedGo_frame _ _ _ fun c hc => (chunks16_mem d c hc).1,
      List.nil_append]
  · rw [formattedLines_length, chunks16_length]
  · exact formattedLines_forall₂ _ _ (chunks16_mem d)

/-- Concrete instance of claim C4 at offset 0 and a one-byte input. -/
theorem formatted_dump_line_structure_witness :
    formatted_dump 0 [65] = (formattedLines 0 (chunks16 [65])).flatten ∧
      (formattedLines 0 (chunks16 [65])).length = (([65] : List Nat).length + 15) / 16 ∧
      List.Forall₂
        (fun l c => l.length = 54 + c.length ∧ l.getLast? = some 10 ∧
          (∀ x ∈ l.dropLast, x ≠ 10) ∧ l.drop 53 = c.map sidebarChar ++ [10])
        (formattedLines 0 (chunks16 [65])) (chunks16 [65]) ∧
      ∀ c ∈ chunks16 [65], c ≠ [] ∧ c.length ≤ 16 :=
  formatted_dump_line_structure 0 [65]

theorem mem_of_getElem_opt {α : Type} {l : List α} {i : Nat} {a : α} (h : l[i]? = some a) :
    a ∈ l := by
  rw [List.getElem?_eq_some] at h
  obtain ⟨hi, rfl⟩ := h
  exact List.getElem_mem hi

theorem offsetPrefix_eq (a : Nat) : offsetPrefix a = natToHex4 (a % 65536) := by
  simp only [offsetPrefix, natToHex4]
  rw [show List.range 4 = [0, 1, 2, 3] by decide]
  simp only [List.map_cons, List.map_nil]
  norm_num
  exact ⟨congrArg hexDigit (by omega), congrArg hexDigit (by omega),
    congrArg hexDigit (by omega)⟩

theorem formattedLines_getElem (cs : List (List Nat)) :
    ∀ (off i : Nat) (l : List Nat), (formattedLines off cs)[i]? = some l →
      ∃ c o, cs[i]? = some c ∧ l = formatLine o c [] ∧
        o % 65536 = (off + 16 * i) % 65536 := by
  induction cs with
  | nil => intro off i l h; simp [formattedLines] at h
  | cons c rest ih =>
    intro off i l h
    cases i with
    | zero =>
      rw [show formattedLines off (c :: rest) =
          formatLine off c [] :: formattedLines ((off + 16) % 2 ^ 32) rest from rfl,
        List.getElem?_cons_zero] at h
      exact ⟨c, off, by simp, (Option.some.inj h).symm, by simp⟩
    | succ j =>
      rw [show formattedLines off (c :: rest) =
          formatLine off c [] :: formattedLines ((off + 16) % 2 ^ 32) rest from rfl,
        List.getElem?_cons_succ] at h
      obtain ⟨c', o, h1, h2, h3⟩ := ih _ j l h
      refine ⟨c', o, by simpa using h1, h2, ?_⟩
      have e : (2 : Nat) ^ 32 = 4294967296 := by norm_num
      rw [e] at h3
      omega

/-- Claim C5: the first five output bytes of the i-th formatted line are
the 4 lowercase hex digits of the low 16 bits of (offset + 16 * i) taken
modulo 2 ^ 32, most-significant nibble first, followed by one space. -/
theorem formatted_line_offset_prefix (off : Nat) (d : List Nat) (i : Nat) (l : List Nat)
    (h : (formattedLines off (chunks16 d))[i]? = some l) :
    l.take 5 = natToHex4 ((off + 16 * i) % 2 ^ 32 % 2 ^ 16) ++ [32] ∧
      ∀ x ∈ natToHex4 ((off + 16 * i) % 2 ^ 32 % 2 ^ 16), x ∈ HEX_DIGIT := by
  obtain ⟨c, o, hc, hl, ho⟩ := formattedLines_getElem _ _ _ _ h
  have hcne : c ≠ [] := (chunks16_mem d c (mem_of_getElem_opt hc)).1
  constructor
  · rw [hl, formatLine_take5 hcne, offsetPrefix_eq]
    have e32 : (2 : Nat) ^ 32 = 4294967296 := by norm_num
    have e16 : (2 : Nat) ^ 16 = 65536 := by norm_num
    rw [e32, e16, show o % 65536 = (off + 16 * i) % 4294967296 % 65536 by omega]
  · intro x hx
    simp only [natToHex4, List.mem_cons, List.not_mem_nil, or_false] at hx
    rcases hx with h | h | h | h <;>
      exact h ▸ hexDigit_mem _ (Nat.mod_lt _ (by omega))

/-- Concrete instance of claim C5: offset 0xFFFFFFFF with one byte of
data renders the prefix ffff (bytes 102 102 102 102) and a space. -/
theorem formatted_line_offset_prefix_witness :
    natToHex4 ((4294967295 + 16 * 0) % 2 ^ 32 % 2 ^ 16) = [102, 102, 102, 102] ∧
      (formatLine 4294967295 [0] []).take 5 = [102, 102, 102, 102, 32] := by
  have hline : (formattedLines 4294967295 (chunks16 [0]))[0]? =
      some (formatLine 4294967295 [0] []) := by
    rw [show chunks16 [0] = [[0]] by rw [chunks16_cons]; simp [chunks16_nil]]
    rfl
  have h := formatted_line_offset_prefix 4294967295 [0] 0
    (formatLine 4294967295 [0] []) hline
  refine ⟨by decide, ?_⟩
  rw [h.1]
  decide

/-- Claim C6: the ASCII sidebar of a formatted line is the chunk mapped
through sidebarChar, which keeps a byte exactly in the printable range
0x20..0x7e and renders 0x2e (dot) otherwise; 0x20 stays a literal space
and 0x7f becomes a dot. -/
theorem formatted_sidebar_mapping (off : Nat) (c : List Nat)
    (h1 : c ≠ []) (h2 : c.length ≤ 16) :
    (formatLine off c []).drop 53 = c.map sidebarChar ++ [10] ∧
      (∀ b : Nat, 32 ≤ b → b ≤ 126 → sidebarChar b = b) ∧
      (∀ b : Nat, b < 32 ∨ 126 < b → sidebarChar b = 46) ∧
      sidebarChar 32 = 32 ∧ sidebarChar 127 = 46 := by
  refine ⟨formatLine_drop53 h1 h2 off, ?_, ?_, by decide, by decide⟩
  · intro b hb1 hb2
    unfold sidebarChar
    rw [if_pos ⟨hb1, hb2⟩]
  · intro b hb
    unfold sidebarChar
    rw [if_neg (by omega)]

/-- Concrete instance of claim C6 at offset 0 and the chunk [65]. -/
theorem formatted_sidebar_mapping_witness :
    (formatLine 0 [65] []).drop 53 = ([65] : List Nat).map sidebarChar ++ [10] ∧
      (∀ b : Nat, 32 ≤ b → b ≤ 126 → sidebarChar b = b) ∧
      (∀ b : Nat, b < 32 ∨ 126 < b → sidebarChar b = 46) ∧
      sidebarChar 32 = 32 ∧ sidebarChar 127 = 46 :=
  formatted_sidebar_mapping 0 [65] (by decide) (by decide)

/-- Claim C7: on empty input the formatted dumper appends nothing to the
target (no offset line, no newline), and the fresh-buffer variant
returns the empty buffer. -/
theorem formatted_empty_input (off : Nat) (t : List Nat) :
    write_formatted_dump_to_vec off [] t = t ∧ formatted_dump off [] = [] := by
  constructor
  · rw [write_formatted_dump_to_vec, chunks16_nil]
    rfl
  · rw [formatted_dump, write_formatted_dump_to_vec, chunks16_nil]
    rfl

/-- Claim C10: the formatted dumper only appends to a pre-populated
target, and every chunk it hands to the bare dumper is non-empty with at
most 16 bytes, so the bare dumper's trailing pop always removes a byte
the formatted dumper itself just pushed. -/
theorem formatted_append_only (off : Nat) (d : List Nat) (t : List Nat) :
    write_formatted_dump_to_vec off d t = t ++ formatted_dump off d ∧
      ∀ c ∈ chunks16 d, c ≠ [] ∧ c.length ≤ 16 := by
  refine ⟨?_, chunks16_mem d⟩
  rw [write_formatted_dump_to_vec, formatted_dump, write_formatted_dump_to_vec,
    writeFormattedGo_frame _ _ _ fun c hc => (chunks16_mem d c hc).1,
    writeFormattedGo_frame _ _ _ fun c hc => (chunks16_mem d c hc).1,
    List.nil_append]

/-- Concrete instance of claim C10 at offset 4096, data [1, 2] and a
pre-populated one-byte target. -/
theorem formatted_append_only_witness :
    write_formatted_dump_to_vec 4096 [1, 2] [99] =
        [99] ++ formatted_dump 4096 [1, 2] ∧
      ∀ c ∈ chunks16 [1, 2], c ≠ [] ∧ c.length ≤ 16 :=
  formatted_append_only 4096 [1, 2] [99]

theorem hexDigitChecked_eq : ∀ n < 16, hexDigitChecked n = some (hexDigit n) := by decide

theorem hexDigitChecked_mod (m : Nat) :
    hexDigitChecked (m % 16) = some (hexDigit (m % 16)) :=
  hexDigitChecked_eq _ (Nat.mod_lt m (by omega))

theorem pushByteHexChecked_eq {b : Nat} (hb : b < 256) (t : List Nat) :
    pushByteHexChecked (some t) b = some (pushByteHex t b) := by
  have h1 : hexDigitChecked (b / 16) = some (hexDigit (b / 16)) :=
    hexDigitChecked_eq _ (Nat.div_lt_of_lt_mul (by omega))
  have h2 : hexDigitChecked (b % 16) = some (hexDigit (b % 16)) :=
    hexDigitChecked_mod b
  simp [pushByteHexChecked, pushByteHex, h1, h2]

theorem foldl_pushByteHexChecked (d : List Nat) :
    ∀ t : List Nat, (∀ b ∈ d, b < 256) →
      d.foldl pushByteHexChecked (some t) = some (d.foldl pushByteHex t) := by
  induction d with
  | nil => intro t _; rfl
  | cons b rest ih =>
    intro t hd
    rw [List.foldl_cons, List.foldl_cons,
      pushByteHexChecked_eq (hd b (List.mem_cons_self b rest))]
    exact ih (pushByteHex t b) fun y hy => hd y (List.mem_cons_of_mem b hy)

theorem writeBareChecked_eq {d : List Nat} (hd : ∀ b ∈ d, b < 256) (t : List Nat) :
    writeBareChecked d t = some (write_bare_dump_to_vec d t) := by
  rw [writeBareChecked, write_bare_dump_to_vec, foldl_pushByteHexChecked d t hd]
  rfl

theorem offsetPrefixChecked_eq (a : Nat) :
    offsetPrefixChecked a = some (offsetPrefix a) := by
  rw [offsetPrefixChecked, offsetPrefix, show List.range 4 = [0, 1, 2, 3] by decide]
  simp [List.mapM, List.mapM.loop, hexDigitChecked_mod]

theorem formatLineChecked_eq {c : List Nat} (hc : ∀ b ∈ c, b < 256)
    (off : Nat) (t : List Nat) :
    formatLineChecked off c t = some (formatLine off c t) := by
  rw [formatLineChecked, formatLine, offsetPrefixChecked_eq]
  simp [writeBareChecked_eq hc]

theorem writeFormattedGoChecked_eq (cs : List (List Nat)) :
    ∀ (off : Nat) (t : List Nat), (∀ c ∈ cs, ∀ b ∈ c, b < 256) →
      writeFormattedGoChecked off cs t = some (writeFormattedGo off cs t) := by
  induction cs with
  | nil => intro off t _; rfl
  | cons c rest ih =>
    intro off t h
    show (formatLineChecked off c t).bind _ = _
    rw [formatLineChecked_eq (h c (List.mem_cons_self c rest))]
    exact ih _ _ fun c' hc' => h c' (List.mem_cons_of_mem c hc')

/-- Claim C8: no operation can fail. The checked dumpers, which return
none exactly where the Rust code would panic on an out-of-range table
index, always return the unchecked result: every nibble index stays
below 16 and the running-offset advance wraps modulo 2 ^ 32 for every
u32 offset and every byte sequence. -/
theorem dump_operations_total (off : Nat) (d : List Nat) (t : List Nat)
    (hd : ∀ b ∈ d, b < 256) :
    writeBareChecked d t = some (write_bare_dump_to_vec d t) ∧
      writeFormattedChecked off d t = some (write_formatted_dump_to_vec off d t) := by
  refine ⟨writeBareChecked_eq hd t, ?_⟩
  rw [writeFormattedChecked, write_formatted_dump_to_vec]
  exact writeFormattedGoChecked_eq _ _ _ fun c hc b hb => hd b (chunks16_subset hc hb)

/-- Concrete instance of claim C8 at offset u32::MAX, one byte of data
and a pre-populated target. -/
theorem dump_operations_total_witness :
    writeBareChecked [255] [7] = some (write_bare_dump_to_vec [255] [7]) ∧
      writeFormattedChecked 4294967295 [255] [7] =
        some (write_formatted_dump_to_vec 4294967295 [255] [7]) :=
  dump_operations_total 4294967295 [255] [7] (by decide)

theorem HEX_DIGIT_printable : ∀ x ∈ HEX_DIGIT, 32 ≤ x ∧ x ≤ 126 := by decide

theorem sidebarChar_printable (b : Nat) :
    32 ≤ sidebarChar b ∧ sidebarChar b ≤ 126 := by
  unfold sidebarChar
  split
  · omega
  · omega

theorem bare_dump_printable {d : List Nat} (hd : ∀ b ∈ d, b < 256) :
    ∀ x ∈ bare_dump d, 32 ≤ x ∧ x ≤ 126 := by
  intro x hx
  rw [bare_dump, write_bare_eq, List.nil_append] at hx
  rcases bareChunks_chars hd x (List.mem_of_mem_dropLast hx) with h | h
  · exact HEX_DIGIT_printable x h
  · omega

theorem formatLine_printable {c : List Nat} (hc : ∀ b ∈ c, b < 256) (off : Nat) :
    ∀ x ∈ formatLine off c [], (32 ≤ x ∧ x ≤ 126) ∨ x = 10 := by
  intro x hx
  unfold formatLine at hx
  simp only [List.append_assoc, List.mem_append, List.mem_singleton,
    List.nil_append] at hx
  rcases hx with hx | hx | hx | hx | hx
  · rw [write_bare_eq] at hx
    have hx' := List.mem_of_mem_dropLast hx
    simp only [List.mem_append, List.mem_singleton] at hx'
    rcases hx' with (h | h) | h
    · obtain ⟨n, hn, he⟩ := mem_offsetPrefix h
      exact Or.inl (HEX_DIGIT_printable x (he ▸ hexDigit_mem n hn))
    · omega
    · rcases bareChunks_chars hc x h with h' | h'
      · exact Or.inl (HEX_DIGIT_printable x h')
      · omega
  · have := List.eq_of_mem_replicate hx
    omega
  · omega
  · rw [List.mem_map] at hx
    obtain ⟨b, _, hb⟩ := hx
    exact Or.inl (hb ▸ sidebarChar_printable b)
  · exact Or.inr hx

theorem formattedLines_mem (cs : List (List Nat)) :
    ∀ (off : Nat) (l : List Nat), l ∈ formattedLines off cs →
      ∃ o c, c ∈ cs ∧ l = formatLine o c [] := by
  induction cs with
  | nil => intro off l h; cases h
  | cons c rest ih =>
    intro off l h
    rcases List.mem_cons.1 h with h | h
    · exact ⟨off, c, List.mem_cons_self c rest, h⟩
    · obtain ⟨o, c', hc', hl⟩ := ih _ l h
      exact ⟨o, c', List.mem_cons_of_mem c hc', hl⟩

theorem formatted_dump_printable {d : List Nat} (hd : ∀ b ∈ d, b < 256) (off : Nat) :
    ∀ x ∈ formatted_dump off d, (32 ≤ x ∧ x ≤ 126) ∨ x = 10 := by
  intro x hx
  rw [formatted_dump, write_formatted_dump_to_vec,
    writeFormattedGo_frame _ _ _ (fun c hc => (chunks16_mem d c hc).1),
    List.nil_append] at hx
  obtain ⟨l, hl, hxl⟩ := List.mem_flatten.1 hx
  obtain ⟨o, c, hc, rfl⟩ := formattedLines_mem _ _ _ hl
  exact formatLine_printable (fun b hb => hd b (chunks16_subset hc hb)) o x hxl

/-- Claim C9: every byte the dumps produce lies in a fixed printable
ASCII subset (printable bytes 0x20..0x7e, plus the newline 0x0a for the
formatted dump), so the unchecked text wraps of the string-returning
variants are always valid text. -/
theorem dump_strings_printable (off : Nat) (d : List Nat) (hd : ∀ b ∈ d, b < 256) :
    (∀ x ∈ bare_dump_string d, 32 ≤ x ∧ x ≤ 126) ∧
      (∀ x ∈ formatted_dump_string off d, (32 ≤ x ∧ x ≤ 126) ∨ x = 10) := by
  refine ⟨?_, ?_⟩
  · rw [bare_dump_string]
    exact bare_dump_printable hd
  · rw [formatted_dump_string]
    exact formatted_dump_printable hd off

/-- Concrete instance of claim C9 at offset 0 and a mixed input of
control, printable and high bytes. -/
theorem dump_strings_printable_witness :
    (∀ x ∈ bare_dump_string [0, 65, 127, 255], 32 ≤ x ∧ x ≤ 126) ∧
      ∀ x ∈ formatted_dump_string 0 [0, 65, 127, 255],
        (32 ≤ x ∧ x ≤ 126) ∨ x = 10 :=
  dump_strings_printable 0 [0, 65, 127, 255] (by decide)
